import Mathlib

/-!
Verification of the list-reconciliation engine in `sync_keep_bring.py`
(GoogleKeepBringSync). The definitions below are a shallow embedding of
`sync_lists` and its helpers: labels are `String`s over the ASCII notion of
case and alphanumeric used by this model (the spec allows the platform's
notion), Python's truthiness test on a string is modelled as inequality with
`""`, the Python dict comprehension building `normalized_keep_items_dict` is
modelled as an insertion-ordered association list where a repeated key keeps
its original position but receives the later value, and the Python set of
normalized Bring names is modelled as a list queried only through membership.
Remote create calls (`bring_client.saveItem`, `keep_list.add`) are modelled as
events in a trace; their success or failure is an oracle `ok : String → Bool`
indexed by the created label, and a failed call contributes a failure record
(the code's `logging.warning`) while the loop continues.
-/

namespace KeepBring

/-- Python `str.strip()` on the character list: drop whitespace from both ends
(the code only ever strips ASCII whitespace-shaped labels; `Char.isWhitespace`
covers space, tab, carriage return and newline). -/
def stripChars (l : List Char) : List Char :=
  ((l.dropWhile Char.isWhitespace).reverse.dropWhile Char.isWhitespace).reverse

/-- Python `s.strip()` as a `String` operation. -/
def pyStrip (s : String) : String :=
  String.mk (stripChars s.toList)

/-- The normalizer of `sync_lists` (lines 94 and 148):
`''.join(char for char in s.strip().lower() if char.isalnum())`. -/
def normalize (s : String) : String :=
  String.mk (((pyStrip s).toList.map Char.toLower).filter Char.isAlphanum)

/-- One Google Keep checklist entry as `sync_lists` sees it: its display text
and its checked flag (`getattr(item_obj, 'checked', False)`). -/
structure KeepItem where
  text : String
  checked : Bool
deriving DecidableEq

/-- One Bring purchase-list entry: the code reads only `item.get('name', '')`;
Bring purchase items carry no checked flag. -/
structure BringItem where
  name : String
deriving DecidableEq

/-- The value returned by `get_bring_list`: the list UUID (possibly absent)
and the `purchase` item list. -/
structure BringSnapshot where
  listUuid : Option String
  purchase : List BringItem
deriving DecidableEq

/-- Insertion into the model of a Python dict displayed as an association
list: an existing key keeps its position and receives the new value, a new
key is appended at the end. -/
def dictInsert (d : List (String × KeepItem)) (k : String) (v : KeepItem) :
    List (String × KeepItem) :=
  match d with
  | [] => [(k, v)]
  | (k', v') :: rest =>
      if k' = k then (k, v) :: rest else (k', v') :: dictInsert rest k v

/-- The dict comprehension of lines 93-96: iterate the Keep items in order,
keep those with truthy `item.text`, key them by `normalize`; a later item
with the same key overwrites the stored item. -/
def keepDict (items : List KeepItem) : List (String × KeepItem) :=
  items.foldl
    (fun d it => if it.text = "" then d else dictInsert d (normalize it.text) it)
    []

/-- The keys of `normalized_keep_items_dict`, used by the `in` test of
line 152. -/
def keepKeys (items : List KeepItem) : List String :=
  (keepDict items).map Prod.fst

/-- The set comprehension of lines 101-104: normalized names of all purchase
items with a truthy `name`, used only through membership (line 123). -/
def bringKeys (b : BringSnapshot) : List String :=
  (b.purchase.filter (fun it => it.name != "")).map (fun it => normalize it.name)

/-- The candidate filter of the Keep→Bring loop (lines 111-126): the pass runs
only when a list UUID is present; an entry of the dict is proposed when its
key is truthy, the stored item is unchecked, and the key is absent from the
Bring key set. -/
def keepToBringProposed (keep : List KeepItem) (bring : BringSnapshot) :
    List (String × KeepItem) :=
  match bring.listUuid with
  | none => []
  | some _ =>
      (keepDict keep).filter fun p =>
        p.1 != "" && !p.2.checked && !((bringKeys bring).contains p.1)

/-- A remote write attempted by `sync_lists`, with the label passed to the
remote call and whether the call succeeded. -/
inductive Event where
  | addBring (listUuid : String) (label : String) (success : Bool)
  | addKeep (label : String) (success : Bool)
deriving DecidableEq

/-- The label an event carries. -/
def Event.label : Event → String
  | .addBring _ l _ => l
  | .addKeep l _ => l

/-- Whether the remote call behind an event succeeded. -/
def Event.success : Event → Bool
  | .addBring _ _ s => s
  | .addKeep _ s => s

/-- The create calls issued by the Keep→Bring loop: one
`bring_client.saveItem(bring_list_id, item_obj.text.strip())` per proposed
entry, in dict order, each succeeding as the oracle dictates (line 128). -/
def keepToBringTrace (ok : String → Bool) (keep : List KeepItem)
    (bring : BringSnapshot) : List Event :=
  match bring.listUuid with
  | none => []
  | some uuid =>
      (keepToBringProposed keep bring).map fun p =>
        Event.addBring uuid (pyStrip p.2.text) (ok (pyStrip p.2.text))

/-- The candidate test of the Bring→Keep loop (line 152):
`item_spec and normalized_spec and normalized_spec not in
normalized_keep_items_dict`. Since `item_spec = item.get('name','').strip()`
is already stripped, the code's `normalized_spec` coincides definitionally
with `normalize it.name`. -/
def bringToKeepCond (keep : List KeepItem) (it : BringItem) : Bool :=
  pyStrip it.name != "" && normalize it.name != "" &&
    !((keepKeys keep).contains (normalize it.name))

/-- The labels the Bring→Keep loop passes to `keep_list.add`, in purchase
order (lines 145-154). -/
def bringToKeepProposed (keep : List KeepItem) (bring : BringSnapshot) :
    List String :=
  (bring.purchase.filter (bringToKeepCond keep)).map fun it => pyStrip it.name

/-- The create calls issued by the Bring→Keep loop. -/
def bringToKeepTrace (ok : String → Bool) (keep : List KeepItem)
    (bring : BringSnapshot) : List Event :=
  (bringToKeepProposed keep bring).map fun l => Event.addKeep l (ok l)

/-- The whole of `sync_lists` as a trace of remote writes: the Keep→Bring
loop runs when `sync_mode in [0, 2]`, then the Bring→Keep loop runs when
`sync_mode in [0, 1]` (its extra guard that the snapshot exists and has a
`purchase` entry always holds of a `BringSnapshot`). Both loops consult only
the dict and key set built from the initial snapshots. -/
def syncTrace (ok : String → Bool) (mode : Int) (keep : List KeepItem)
    (bring : BringSnapshot) : List Event :=
  (if mode = 0 ∨ mode = 2 then keepToBringTrace ok keep bring else []) ++
    (if mode = 0 ∨ mode = 1 then bringToKeepTrace ok keep bring else [])

/-- The per-batch accumulation both loops perform (lines 126-132 and
152-159): each label is attempted in order; a success increments the added
counter, a failure appends a failure record and the loop continues. -/
def applyBatch (ok : String → Bool) (labels : List String) : Nat × List String :=
  labels.foldl
    (fun acc l => if ok l then (acc.1 + 1, acc.2) else (acc.1, acc.2 ++ [l]))
    (0, [])

/-- The `items_added` counter read off a trace. -/
def itemsAdded (tr : List Event) : Nat :=
  (tr.filter Event.success).length

/-- The failure records (one warning per failed call) read off a trace. -/
def failuresOf (tr : List Event) : List String :=
  (tr.filter fun e => !e.success).map Event.label

/-- The Bring snapshot after a Keep→Bring pass in which every create call
succeeded: the purchase list additionally contains one item per proposed
entry, named with the stripped Keep text that was passed to `saveItem`. -/
def bringAfterSync (keep : List KeepItem) (bring : BringSnapshot) :
    BringSnapshot :=
  { listUuid := bring.listUuid
    purchase :=
      bring.purchase ++
        (keepToBringProposed keep bring).map fun p => ⟨pyStrip p.2.text⟩ }

/-- The Keep list after a Bring→Keep pass in which every create call
succeeded: `keep_list.add(item_spec)` appends a fresh unchecked entry whose
text is the stripped Bring name. -/
def keepAfterSync (keep : List KeepItem) (bring : BringSnapshot) :
    List KeepItem :=
  keep ++ (bringToKeepProposed keep bring).map fun l => ⟨l, false⟩

end KeepBring

namespace KeepBring

/-- A whitespace character stays non-alphanumeric after lowercasing, so
stripping it before or after normalization makes no difference. -/
theorem whitespace_not_alphanum {c : Char} (h : c.isWhitespace = true) :
    c.toLower.isAlphanum = false := by
  simp only [Char.isWhitespace, Bool.or_eq_true, decide_eq_true_eq] at h
  rcases h with ((h | h) | h) | h <;> subst h <;> decide

/-- Dropping a whitespace prefix does not change the normalized character
sequence. -/
theorem filter_map_dropWhile (l : List Char) :
    ((l.dropWhile Char.isWhitespace).map Char.toLower).filter Char.isAlphanum
      = (l.map Char.toLower).filter Char.isAlphanum := by
  induction l with
  | nil => rfl
  | cons c t ih =>
    by_cases h : c.isWhitespace = true
    · rw [List.dropWhile_cons_of_pos h, ih]
      simp [List.filter_cons, whitespace_not_alphanum h]
    · rw [List.dropWhile_cons_of_neg h]

/-- Stripping surrounding whitespace does not change the normalized
character sequence. -/
theorem filter_map_stripChars (l : List Char) :
    ((stripChars l).map Char.toLower).filter Char.isAlphanum
      = (l.map Char.toLower).filter Char.isAlphanum := by
  unfold stripChars
  rw [List.map_reverse, List.filter_reverse, filter_map_dropWhile,
    List.map_reverse, List.filter_reverse, List.reverse_reverse,
    filter_map_dropWhile]

/-- Normalization is insensitive to a preceding strip: the label actually
sent to the remote side has the same key as the label it came from. -/
theorem normalize_pyStrip (s : String) : normalize (pyStrip s) = normalize s := by
  show String.mk (((stripChars (stripChars s.toList)).map Char.toLower).filter
        Char.isAlphanum)
      = String.mk (((stripChars s.toList).map Char.toLower).filter Char.isAlphanum)
  rw [filter_map_stripChars]

/-- A label with a non-empty normalized key survives stripping. -/
theorem pyStrip_ne_of_normalize_ne {s : String} (h : normalize s ≠ "") :
    pyStrip s ≠ "" := by
  intro hp
  apply h
  unfold normalize
  rw [hp]
  decide

/-- Membership in the key column after a dict insertion. -/
theorem mem_keys_dictInsert {d : List (String × KeepItem)} {k k' : String}
    {v : KeepItem} :
    k' ∈ (dictInsert d k v).map Prod.fst ↔ k' ∈ d.map Prod.fst ∨ k' = k := by
  induction d with
  | nil => simp [dictInsert]
  | cons q rest ih =>
    obtain ⟨k2, v2⟩ := q
    by_cases h : k2 = k
    · subst h
      simp [dictInsert]
      tauto
    · simp [dictInsert, h, ih]
      tauto

/-- An entry of a dict after insertion either was already stored or is the
inserted pair. -/
theorem mem_dictInsert {d : List (String × KeepItem)} {k : String}
    {v : KeepItem} {p : String × KeepItem} (hp : p ∈ dictInsert d k v) :
    p ∈ d ∨ p = (k, v) := by
  induction d with
  | nil => simpa [dictInsert] using hp
  | cons q rest ih =>
    obtain ⟨k2, v2⟩ := q
    by_cases h : k2 = k
    · subst h
      rcases (by simpa [dictInsert] using hp : p = (k2, v) ∨ p ∈ rest) with h1 | h1
      · exact Or.inr h1
      · exact Or.inl (List.mem_cons_of_mem _ h1)
    · rcases (by simpa [dictInsert, h] using hp : p = (k2, v2) ∨ p ∈ dictInsert rest k v)
        with h1 | h1
      · exact Or.inl (by simp [h1])
      · rcases ih h1 with h2 | h2
        · exact Or.inl (List.mem_cons_of_mem _ h2)
        · exact Or.inr h2

/-- Dict insertion preserves distinctness of the key column. -/
theorem nodup_keys_dictInsert {d : List (String × KeepItem)} {k : String}
    {v : KeepItem} (hd : (d.map Prod.fst).Nodup) :
    ((dictInsert d k v).map Prod.fst).Nodup := by
  induction d with
  | nil => simp [dictInsert]
  | cons q rest ih =>
    obtain ⟨k2, v2⟩ := q
    simp only [List.map_cons, List.nodup_cons] at hd
    by_cases h : k2 = k
    · subst h
      simpa [dictInsert] using hd
    · simp only [dictInsert, if_neg h, List.map_cons, List.nodup_cons]
      refine ⟨?_, ih hd.2⟩
      intro hmem
      rcases mem_keys_dictInsert.mp hmem with h1 | h1
      · exact hd.1 h1
      · exact h h1

/-- Inserting a fresh key appends the pair at the end, preserving order. -/
theorem dictInsert_of_not_mem {d : List (String × KeepItem)} {k : String}
    {v : KeepItem} (h : k ∉ d.map Prod.fst) :
    dictInsert d k v = d ++ [(k, v)] := by
  induction d with
  | nil => rfl
  | cons q rest ih =>
    obtain ⟨k2, v2⟩ := q
    simp only [List.map_cons, List.mem_cons, not_or] at h
    have hne : ¬k2 = k := fun hh => h.1 hh.symm
    simp only [dictInsert, if_neg hne, List.cons_append, List.cons.injEq, true_and]
    exact ih h.2

/-- Unrolling the dict comprehension one source item at a time, from the
right. -/
theorem keepDict_append_single (l : List KeepItem) (x : KeepItem) :
    keepDict (l ++ [x]) =
      if x.text = "" then keepDict l
      else dictInsert (keepDict l) (normalize x.text) x := by
  unfold keepDict
  rw [List.foldl_append]
  rfl

/-- The keys of the Keep dict are exactly the normalized keys of the items
with truthy text, checked or not. -/
theorem mem_keepKeys {items : List KeepItem} {k : String} :
    k ∈ keepKeys items ↔ ∃ it, it ∈ items ∧ it.text ≠ "" ∧ normalize it.text = k := by
  induction items using List.reverseRecOn with
  | nil => simp [keepKeys, keepDict]
  | append_singleton l x ih =>
    simp only [keepKeys] at ih ⊢
    rw [keepDict_append_single]
    by_cases h : x.text = ""
    · rw [if_pos h, ih]
      constructor
      · rintro ⟨j, hj, hne, hk⟩
        exact ⟨j, List.mem_append_left _ hj, hne, hk⟩
      · rintro ⟨j, hj, hne, hk⟩
        rcases List.mem_append.mp hj with hj' | hj'
        · exact ⟨j, hj', hne, hk⟩
        · rw [List.mem_singleton.mp hj'] at hne
          exact absurd h hne
    · rw [if_neg h, mem_keys_dictInsert, ih]
      constructor
      · rintro (⟨j, hj, hne, hk⟩ | rfl)
        · exact ⟨j, List.mem_append_left _ hj, hne, hk⟩
        · exact ⟨x, List.mem_append_right _ (List.mem_singleton_self x), h, rfl⟩
      · rintro ⟨j, hj, hne, hk⟩
        rcases List.mem_append.mp hj with hj' | hj'
        · exact Or.inl ⟨j, hj', hne, hk⟩
        · rw [List.mem_singleton.mp hj'] at hk
          exact Or.inr hk.symm

/-- Every stored dict entry is keyed by the normalized text of the stored
item, that text is truthy, and the item is one of the source items. -/
theorem keepDict_entry {items : List KeepItem} {p : String × KeepItem}
    (hp : p ∈ keepDict items) :
    normalize p.2.text = p.1 ∧ p.2.text ≠ "" ∧ p.2 ∈ items := by
  induction items using List.reverseRecOn with
  | nil => simp [keepDict] at hp
  | append_singleton l x ih =>
    rw [keepDict_append_single] at hp
    by_cases h : x.text = ""
    · rw [if_pos h] at hp
      obtain ⟨h1, h2, h3⟩ := ih hp
      exact ⟨h1, h2, List.mem_append_left _ h3⟩
    · rw [if_neg h] at hp
      rcases mem_dictInsert hp with h1 | h1
      · obtain ⟨h2, h3, h4⟩ := ih h1
        exact ⟨h2, h3, List.mem_append_left _ h4⟩
      · subst h1
        exact ⟨rfl, h, List.mem_append_right _ (List.mem_singleton_self x)⟩

/-- The Keep dict never stores the same normalized key twice. -/
theorem nodup_keepKeys (items : List KeepItem) : (keepKeys items).Nodup := by
  induction items using List.reverseRecOn with
  | nil => simp [keepKeys, keepDict]
  | append_singleton l x ih =>
    simp only [keepKeys] at ih ⊢
    rw [keepDict_append_single]
    by_cases h : x.text = ""
    · rwa [if_pos h]
    · rw [if_neg h]
      exact nodup_keys_dictInsert ih

/-- With truthy texts and pairwise-distinct keys the dict lists the source
items in their original order. -/
theorem keepDict_eq_map {items : List KeepItem}
    (hne : ∀ it ∈ items, it.text ≠ "")
    (hnd : (items.map fun it => normalize it.text).Nodup) :
    keepDict items = items.map fun it => (normalize it.text, it) := by
  induction items using List.reverseRecOn with
  | nil => rfl
  | append_singleton l x ih =>
    rw [keepDict_append_single,
      if_neg (hne x (List.mem_append_right _ (List.mem_singleton_self x)))]
    have hmapnd : ((l.map fun it => normalize it.text).Nodup) ∧
        normalize x.text ∉ l.map fun it => normalize it.text := by
      rw [List.map_append] at hnd
      simp only [List.map_singleton] at hnd
      rcases List.nodup_append.mp hnd with ⟨h1, _, h3⟩
      refine ⟨h1, fun hmem => ?_⟩
      exact h3 hmem (List.mem_singleton_self _)
    have hfresh : normalize x.text ∉ (keepDict l).map Prod.fst := by
      intro hmem
      rcases mem_keepKeys.mp hmem with ⟨j, hj, hjne, hjk⟩
      exact hmapnd.2 (hjk ▸ List.mem_map_of_mem (fun it => normalize it.text) hj)
    rw [dictInsert_of_not_mem hfresh,
      ih (fun it hit => hne it (List.mem_append_left _ hit)) hmapnd.1,
      List.map_append]
    rfl

/-- The accumulator form of the per-batch loop. -/
theorem applyBatch_go (ok : String → Bool) (labels : List String) :
    ∀ (a : Nat) (f : List String),
      labels.foldl
          (fun acc l => if ok l then (acc.1 + 1, acc.2) else (acc.1, acc.2 ++ [l]))
          (a, f)
        = (a + (labels.filter ok).length, f ++ labels.filter fun l => !(ok l)) := by
  induction labels with
  | nil => intro a f; simp
  | cons l t ih =>
    intro a f
    rw [List.foldl_cons]
    cases h : ok l
    · rw [if_neg Bool.false_ne_true, ih]
      have h1 : List.filter ok (l :: t) = List.filter ok t := by
        simp [List.filter_cons, h]
      have h2 : List.filter (fun l => !(ok l)) (l :: t)
          = l :: List.filter (fun l => !(ok l)) t := by
        simp [List.filter_cons, h]
      rw [h1, h2, List.append_assoc, List.singleton_append]
    · rw [if_pos rfl, ih]
      have h1 : List.filter ok (l :: t) = l :: List.filter ok t := by
        simp [List.filter_cons, h]
      have h2 : List.filter (fun l => !(ok l)) (l :: t)
          = List.filter (fun l => !(ok l)) t := by
        simp [List.filter_cons, h]
      rw [h1, h2, List.length_cons]
      have h3 : a + 1 + (List.filter ok t).length
          = a + ((List.filter ok t).length + 1) := by omega
      rw [h3]

/-- The per-batch loop attempts every label: the added counter counts the
successes and the failure records are exactly the failed labels, in order. -/
theorem applyBatch_eq (ok : String → Bool) (labels : List String) :
    applyBatch ok labels
      = ((labels.filter ok).length, labels.filter fun l => !(ok l)) := by
  unfold applyBatch
  rw [applyBatch_go]
  simp

/-- Membership reading of the Bring key-set test of line 123 and the Keep
dict test of line 152. -/
theorem contains_iff_mem {l : List String} {a : String} :
    l.contains a = true ↔ a ∈ l := by
  simp [List.contains]

end KeepBring

namespace KeepBring

/-- Bool-level reading of a failed membership test. -/
theorem contains_eq_false {l : List String} {a : String} :
    l.contains a = false ↔ a ∉ l := by
  rw [← contains_iff_mem, Bool.eq_false_iff]

/-- C3: for the source snapshot [{Milk,unchecked},{Bread,checked},
{Eggs,unchecked}] and the destination snapshot [{eggs}], the diff proposes
exactly the Milk item — Bread is excluded as checked and Eggs as already
present by normalized key — and the single create call sends "Milk". -/
theorem c3_end_to_end_scenario :
    (keepToBringProposed [⟨"Milk", false⟩, ⟨"Bread", true⟩, ⟨"Eggs", false⟩]
          ⟨some "u", [⟨"eggs"⟩]⟩).map Prod.snd
        = [⟨"Milk", false⟩] ∧
      keepToBringTrace (fun _ => true)
          [⟨"Milk", false⟩, ⟨"Bread", true⟩, ⟨"Eggs", false⟩]
          ⟨some "u", [⟨"eggs"⟩]⟩
        = [Event.addBring "u" "Milk" true] := by
  exact ⟨by decide, by decide⟩

/-- C9: in BOTH mode (sync_mode 0) the run is the Keep→Bring pass followed by
exactly the writes a standalone Bring→Keep run (sync_mode 1) would issue
against the same initial snapshots: the second pass's key set comes from the
snapshot captured before the first pass's writes and is never rebuilt. -/
theorem c9_both_mode_stale_snapshot (ok : String → Bool) (keep : List KeepItem)
    (bring : BringSnapshot) :
    syncTrace ok 0 keep bring
      = keepToBringTrace ok keep bring ++ syncTrace ok 1 keep bring := by
  unfold syncTrace
  rw [if_pos (Or.inl rfl), if_pos (Or.inl rfl), if_neg (by decide),
    if_pos (Or.inr rfl), List.nil_append]

/-- C10: a sync_mode outside {0, 1, 2} issues no create call in either
direction; mode 1 runs only the Bring→Keep pass and mode 2 runs only the
Keep→Bring pass. -/
theorem c10_sync_mode_gating (ok : String → Bool) (mode : Int)
    (keep : List KeepItem) (bring : BringSnapshot) :
    (mode ≠ 0 → mode ≠ 1 → mode ≠ 2 → syncTrace ok mode keep bring = []) ∧
      syncTrace ok 1 keep bring = bringToKeepTrace ok keep bring ∧
      syncTrace ok 2 keep bring = keepToBringTrace ok keep bring := by
  refine ⟨fun h0 h1 h2 => ?_, ?_, ?_⟩
  · unfold syncTrace
    rw [if_neg (by tauto), if_neg (by tauto), List.nil_append]
  · unfold syncTrace
    rw [if_neg (by decide), if_pos (Or.inr rfl), List.nil_append]
  · unfold syncTrace
    rw [if_pos (Or.inr rfl), if_neg (by decide), List.append_nil]

/-- Witness for C10 at the concrete mode 3: no create call is issued. -/
theorem c10_sync_mode_gating_witness :
    (3 : Int) ≠ 0 ∧ (3 : Int) ≠ 1 ∧ (3 : Int) ≠ 2 ∧
      syncTrace (fun _ => true) 3 [⟨"Milk", false⟩] ⟨some "u", [⟨"Tea"⟩]⟩ = [] := by
  refine ⟨by decide, by decide, by decide,
    (c10_sync_mode_gating (fun _ => true) 3 [⟨"Milk", false⟩]
        ⟨some "u", [⟨"Tea"⟩]⟩).1 (by decide) (by decide) (by decide)⟩

/-- C2 counterexample: in the Bring→Keep direction two active Bring items
"Milk" and "milk" share the non-empty normalized key "milk", yet against an
empty Keep list a single pass creates both — the key is created twice, so
within-source duplicates are not deduplicated in this direction. -/
theorem c2_within_source_dedup_counterexample :
    bringToKeepTrace (fun _ => true) [] ⟨some "u", [⟨"Milk"⟩, ⟨"milk"⟩]⟩
        = [Event.addKeep "Milk" true, Event.addKeep "milk" true] ∧
      normalize "Milk" = normalize "milk" ∧ normalize "Milk" ≠ "" := by
  exact ⟨by decide, by decide, by decide⟩

/-- C2 amended: only the Keep→Bring direction proposes and creates a given
normalized key at most once per pass (the dict comprehension collapses
duplicate keys, keeping the last item); the Bring→Keep direction has no such
deduplication. -/
theorem c2_within_source_dedup_amended (ok : String → Bool)
    (keep : List KeepItem) (bring : BringSnapshot) (k : String) :
    ((keepToBringProposed keep bring).map Prod.fst).count k ≤ 1 ∧
      ((keepToBringTrace ok keep bring).map fun e => normalize e.label).count k
        ≤ 1 := by
  have hmain : ∀ (b : BringSnapshot),
      ((keepToBringProposed keep b).map Prod.fst).count k ≤ 1 := by
    intro b
    cases hu : b.listUuid with
    | none => simp [keepToBringProposed, hu]
    | some u =>
      have hsub : List.Sublist (keepToBringProposed keep b) (keepDict keep) := by
        simp only [keepToBringProposed, hu]
        exact List.filter_sublist _
      have hnd : ((keepToBringProposed keep b).map Prod.fst).Nodup :=
        (hsub.map Prod.fst).nodup (nodup_keepKeys keep)
      exact List.nodup_iff_count_le_one.mp hnd k
  refine ⟨hmain bring, ?_⟩
  cases hu : bring.listUuid with
  | none => simp [keepToBringTrace, hu]
  | some u =>
    have htr : (keepToBringTrace ok keep bring).map (fun e => normalize e.label)
        = (keepToBringProposed keep bring).map Prod.fst := by
      simp only [keepToBringTrace, hu, List.map_map]
      refine List.map_congr_left fun p hp => ?_
      have hp' : p ∈ keepDict keep := by
        have := hp
        simp only [keepToBringProposed, hu, List.mem_filter] at this
        exact this.1
      have hinv := keepDict_entry hp'
      simp only [Function.comp, Event.label]
      rw [normalize_pyStrip]
      exact hinv.1
    rw [htr]
    exact hmain bring

/-- C7 counterexample: a punctuation-only label is truthy in Python, so it
enters the presence-comparison key sets under the empty normalized key, on
both sides — it is not excluded from those sets. -/
theorem c7_empty_key_counterexample :
    "" ∈ bringKeys ⟨some "u", [⟨"!!!"⟩]⟩ ∧ "" ∈ keepKeys [⟨"???", false⟩] := by
  exact ⟨by decide, by decide⟩

end KeepBring

namespace KeepBring

/-- Unpacking membership in the Keep→Bring candidate list: the entry is a
stored dict entry with a truthy key, an unchecked item, and a key absent
from the Bring key set. -/
theorem mem_keepToBringProposed {keep : List KeepItem} {bring : BringSnapshot}
    {p : String × KeepItem} (hp : p ∈ keepToBringProposed keep bring) :
    p ∈ keepDict keep ∧ p.1 ≠ "" ∧ p.2.checked = false ∧ p.1 ∉ bringKeys bring := by
  cases hu : bring.listUuid with
  | none => simp [keepToBringProposed, hu] at hp
  | some u =>
    simp only [keepToBringProposed, hu, List.mem_filter] at hp
    obtain ⟨h1, h2⟩ := hp
    simp only [Bool.and_eq_true, bne_iff_ne, ne_eq, Bool.not_eq_true'] at h2
    exact ⟨h1, h2.1.1, h2.1.2, contains_eq_false.mp h2.2⟩

/-- Unpacking the Bring→Keep candidate test: the stripped name is truthy,
the normalized key is non-empty and missing from the Keep dict. -/
theorem bringToKeepCond_eq_true {keep : List KeepItem} {it : BringItem}
    (h : bringToKeepCond keep it = true) :
    pyStrip it.name ≠ "" ∧ normalize it.name ≠ "" ∧
      normalize it.name ∉ keepKeys keep := by
  simp only [bringToKeepCond, Bool.and_eq_true, bne_iff_ne, ne_eq,
    Bool.not_eq_true'] at h
  exact ⟨h.1.1, h.1.2, contains_eq_false.mp h.2⟩

/-- Unpacking membership in the Bring→Keep proposed-label list. -/
theorem mem_bringToKeepProposed {keep : List KeepItem} {bring : BringSnapshot}
    {l : String} (hl : l ∈ bringToKeepProposed keep bring) :
    ∃ it, it ∈ bring.purchase ∧ bringToKeepCond keep it = true ∧
      l = pyStrip it.name := by
  simp only [bringToKeepProposed, List.mem_map, List.mem_filter] at hl
  obtain ⟨it, ⟨h1, h2⟩, h3⟩ := hl
  exact ⟨it, h1, h2, h3.symm⟩

/-- C1: a source key already present on the destination — in either
direction, and regardless of the destination item's checked state, which the
key sets ignore — is never proposed and never created; in particular a
checked Keep item "Eggs" suppresses the Bring item "eggs". -/
theorem c1_presence_suppresses_duplication (ok : String → Bool)
    (keep : List KeepItem) (bring : BringSnapshot) :
    ((keepToBringProposed keep bring).all fun p =>
        !((bringKeys bring).contains p.1)) = true ∧
      ((keepToBringTrace ok keep bring).all fun e =>
        !((bringKeys bring).contains (normalize e.label))) = true ∧
      ((bringToKeepTrace ok keep bring).all fun e =>
        !((keepKeys keep).contains (normalize e.label))) = true ∧
      bringToKeepProposed [⟨"Eggs", true⟩] ⟨some "u", [⟨"eggs"⟩]⟩ = [] := by
  refine ⟨?_, ?_, ?_, by decide⟩
  · rw [List.all_eq_true]
    intro p hp
    obtain ⟨-, -, -, hct⟩ := mem_keepToBringProposed hp
    simpa using hct
  · rw [List.all_eq_true]
    intro e he
    cases hu : bring.listUuid with
    | none => simp [keepToBringTrace, hu] at he
    | some u =>
      simp only [keepToBringTrace, hu, List.mem_map] at he
      obtain ⟨p, hp, rfl⟩ := he
      obtain ⟨hpd, -, -, hct⟩ := mem_keepToBringProposed hp
      have hk := (keepDict_entry hpd).1
      simp only [Event.label]
      rw [normalize_pyStrip, hk]
      simpa using hct
  · rw [List.all_eq_true]
    intro e he
    simp only [bringToKeepTrace, List.mem_map] at he
    obtain ⟨l, hl, rfl⟩ := he
    obtain ⟨it, -, hcond, rfl⟩ := mem_bringToKeepProposed hl
    obtain ⟨-, -, hnot⟩ := bringToKeepCond_eq_true hcond
    simp only [Event.label]
    rw [normalize_pyStrip]
    simpa using hnot

/-- C4: a checked source item is never proposed by the Keep→Bring diff, and
every label actually sent to Bring is the stripped text of an unchecked Keep
item. -/
theorem c4_no_propagation_of_checked_items (ok : String → Bool)
    (keep : List KeepItem) (bring : BringSnapshot) :
    ((keepToBringProposed keep bring).all fun p => !p.2.checked) = true ∧
      ((keepToBringTrace ok keep bring).all fun e =>
        keep.any fun it => !it.checked && pyStrip it.text == e.label) = true := by
  constructor
  · rw [List.all_eq_true]
    intro p hp
    obtain ⟨-, -, hch, -⟩ := mem_keepToBringProposed hp
    simp [hch]
  · rw [List.all_eq_true]
    intro e he
    cases hu : bring.listUuid with
    | none => simp [keepToBringTrace, hu] at he
    | some u =>
      simp only [keepToBringTrace, hu, List.mem_map] at he
      obtain ⟨p, hp, rfl⟩ := he
      obtain ⟨hpd, -, hch, -⟩ := mem_keepToBringProposed hp
      obtain ⟨-, -, hmem⟩ := keepDict_entry hpd
      rw [List.any_eq_true]
      exact ⟨p.2, hmem, by simp [hch, Event.label]⟩

/-- C7 amended: an item whose label normalizes to the empty key is itself
never proposed or created on either side, and it never suppresses another
item's creation — removing such an item from either snapshot leaves the
proposals unchanged. (Contrary to the claim's wording, a punctuation-only
label does enter the comparison key sets, as the empty key, harmlessly.) -/
theorem c7_empty_key_amended (keep : List KeepItem) (bring : BringSnapshot)
    (bi : BringItem) (jt : KeepItem)
    (hbi : normalize bi.name = "") (hjt : normalize jt.text = "") :
    ((keepToBringProposed keep bring).all fun p => normalize p.2.text != "") = true ∧
      ((bringToKeepProposed keep bring).all fun l => normalize l != "") = true ∧
      keepToBringProposed keep ⟨bring.listUuid, bi :: bring.purchase⟩
        = keepToBringProposed keep bring ∧
      bringToKeepProposed (keep ++ [jt]) bring = bringToKeepProposed keep bring := by
  refine ⟨?_, ?_, ?_, ?_⟩
  · rw [List.all_eq_true]
    intro p hp
    obtain ⟨hpd, hne, -, -⟩ := mem_keepToBringProposed hp
    rw [(keepDict_entry hpd).1]
    simp [hne]
  · rw [List.all_eq_true]
    intro l hl
    obtain ⟨it, -, hcond, rfl⟩ := mem_bringToKeepProposed hl
    obtain ⟨-, hnk, -⟩ := bringToKeepCond_eq_true hcond
    rw [normalize_pyStrip]
    simp [hnk]
  · cases hu : bring.listUuid with
    | none => simp [keepToBringProposed, hu]
    | some u =>
      by_cases hb : bi.name = ""
      · have hkeys : bringKeys ⟨some u, bi :: bring.purchase⟩ = bringKeys bring := by
          simp [bringKeys, List.filter_cons, hb]
        simp only [keepToBringProposed, hu, hkeys]
      · have hkeys : bringKeys ⟨some u, bi :: bring.purchase⟩
            = "" :: bringKeys bring := by
          simp [bringKeys, List.filter_cons, hb, hbi]
        simp only [keepToBringProposed, hu, hkeys]
        refine List.filter_congr fun p hp => ?_
        by_cases hp1 : p.1 = ""
        · simp [hp1]
        · simp [List.contains_cons, hp1]
  · refine congrArg _ (List.filter_congr fun it hit => ?_)
    by_cases hnk : normalize it.name = ""
    · simp [bringToKeepCond, hnk]
    · have hiff : normalize it.name ∈ keepKeys (keep ++ [jt])
          ↔ normalize it.name ∈ keepKeys keep := by
        rw [mem_keepKeys, mem_keepKeys]
        constructor
        · rintro ⟨j, hj, hne, hk⟩
          rcases List.mem_append.mp hj with hj' | hj'
          · exact ⟨j, hj', hne, hk⟩
          · rw [List.mem_singleton.mp hj'] at hk
            rw [hjt] at hk
            exact absurd hk.symm hnk
        · rintro ⟨j, hj, hne, hk⟩
          exact ⟨j, List.mem_append_left _ hj, hne, hk⟩
      simp [bringToKeepCond, hiff]

/-- Witness for C7's amended statement at concrete snapshots, with the
punctuation-only labels "!!!" and "???". -/
theorem c7_empty_key_amended_witness :
    normalize (BringItem.mk "!!!").name = "" ∧
      normalize (KeepItem.mk "???" false).text = "" ∧
      (((keepToBringProposed [⟨"Milk", false⟩] ⟨some "u", [⟨"Tea"⟩]⟩).all
          fun p => normalize p.2.text != "") = true ∧
        ((bringToKeepProposed [⟨"Milk", false⟩] ⟨some "u", [⟨"Tea"⟩]⟩).all
          fun l => normalize l != "") = true ∧
        keepToBringProposed [⟨"Milk", false⟩]
            ⟨(BringSnapshot.mk (some "u") [⟨"Tea"⟩]).listUuid,
              ⟨"!!!"⟩ :: (BringSnapshot.mk (some "u") [⟨"Tea"⟩]).purchase⟩
          = keepToBringProposed [⟨"Milk", false⟩] ⟨some "u", [⟨"Tea"⟩]⟩ ∧
        bringToKeepProposed ([⟨"Milk", false⟩] ++ [⟨"???", false⟩])
            ⟨some "u", [⟨"Tea"⟩]⟩
          = bringToKeepProposed [⟨"Milk", false⟩] ⟨some "u", [⟨"Tea"⟩]⟩) := by
  exact ⟨by decide, by decide,
    c7_empty_key_amended [⟨"Milk", false⟩] ⟨some "u", [⟨"Tea"⟩]⟩ ⟨"!!!"⟩
      ⟨"???", false⟩ (by decide) (by decide)⟩

end KeepBring

namespace KeepBring

/-- C5: each batch attempts every candidate in order even when an earlier
create call fails — the added counter counts exactly the successes and the
failure records are exactly the failed labels — and in the concrete
three-candidate run where only the second create fails, the third is still
attempted, two items are added and exactly one failure is recorded. -/
theorem c5_failure_isolation :
    (∀ (ok : String → Bool) (labels : List String),
        applyBatch ok labels
          = ((labels.filter ok).length, labels.filter fun l => !(ok l))) ∧
      (∀ (ok : String → Bool) (keep : List KeepItem) (bring : BringSnapshot),
        (itemsAdded (keepToBringTrace ok keep bring),
            failuresOf (keepToBringTrace ok keep bring))
          = applyBatch ok ((keepToBringProposed keep bring).map
              fun p => pyStrip p.2.text)) ∧
      keepToBringTrace (fun l => l != "Bread")
          [⟨"Milk", false⟩, ⟨"Bread", false⟩, ⟨"Eggs", false⟩] ⟨some "u", []⟩
        = [Event.addBring "u" "Milk" true, Event.addBring "u" "Bread" false,
            Event.addBring "u" "Eggs" true] ∧
      itemsAdded (keepToBringTrace (fun l => l != "Bread")
          [⟨"Milk", false⟩, ⟨"Bread", false⟩, ⟨"Eggs", false⟩] ⟨some "u", []⟩) = 2 ∧
      failuresOf (keepToBringTrace (fun l => l != "Bread")
          [⟨"Milk", false⟩, ⟨"Bread", false⟩, ⟨"Eggs", false⟩] ⟨some "u", []⟩)
        = ["Bread"] := by
  refine ⟨applyBatch_eq, ?_, by decide, by decide, by decide⟩
  intro ok keep bring
  rw [applyBatch_eq]
  cases hu : bring.listUuid with
  | none =>
    simp [keepToBringTrace, keepToBringProposed, hu, itemsAdded, failuresOf]
  | some u =>
    simp only [keepToBringTrace, hu, itemsAdded, failuresOf, List.filter_map,
      List.map_map, List.length_map, Prod.mk.injEq]
    exact ⟨rfl, rfl⟩

/-- C6: when every source item is active with a distinct non-empty key
missing from the destination, the diff output lists the source items in
their original order and the create calls are issued in that same order; the
Bring→Keep pass likewise preserves the purchase order. -/
theorem c6_order_preservation
    (items : List KeepItem) (bring : BringSnapshot) (uuid : String)
    (bitems : List BringItem) (keep2 : List KeepItem)
    (hu : bring.listUuid = some uuid)
    (h1 : ∀ it ∈ items, it.checked = false ∧ it.text ≠ "" ∧
        normalize it.text ≠ "" ∧ normalize it.text ∉ bringKeys bring)
    (h2 : (items.map fun it => normalize it.text).Nodup)
    (h3 : ∀ it ∈ bitems, pyStrip it.name ≠ "" ∧ normalize it.name ≠ "" ∧
        normalize it.name ∉ keepKeys keep2) :
    (keepToBringProposed items bring).map Prod.snd = items ∧
      (∀ ok : String → Bool, keepToBringTrace ok items bring
        = items.map fun it =>
            Event.addBring uuid (pyStrip it.text) (ok (pyStrip it.text))) ∧
      bringToKeepProposed keep2 ⟨some uuid, bitems⟩
        = bitems.map fun it => pyStrip it.name := by
  have hdict : keepDict items = items.map fun it => (normalize it.text, it) :=
    keepDict_eq_map (fun it h => (h1 it h).2.1) h2
  have hfilter : (keepDict items).filter
      (fun p => p.1 != "" && !p.2.checked && !((bringKeys bring).contains p.1))
      = keepDict items := by
    rw [List.filter_eq_self]
    intro p hp
    rw [hdict] at hp
    obtain ⟨it, hit, rfl⟩ := List.mem_map.mp hp
    obtain ⟨hc, -, hn, hb⟩ := h1 it hit
    simp only [Bool.and_eq_true, bne_iff_ne, ne_eq, Bool.not_eq_true',
      contains_eq_false]
    exact ⟨⟨hn, hc⟩, hb⟩
  have hprop : keepToBringProposed items bring = keepDict items := by
    simp only [keepToBringProposed, hu]
    exact hfilter
  refine ⟨?_, ?_, ?_⟩
  · rw [hprop, hdict, List.map_map]
    exact List.map_id items
  · intro ok
    simp only [keepToBringTrace, hu, hprop, hdict, List.map_map]
    rfl
  · have hf : bitems.filter (bringToKeepCond keep2) = bitems := by
      rw [List.filter_eq_self]
      intro it hit
      obtain ⟨hs, hn, hk⟩ := h3 it hit
      simp [bringToKeepCond, hs, hn, hk]
    show (bitems.filter (bringToKeepCond keep2)).map (fun it => pyStrip it.name)
      = bitems.map fun it => pyStrip it.name
    rw [hf]

/-- Witness for C6 at the concrete all-missing source [Apple, Beans, Cocoa]
against an empty destination, in both directions. -/
theorem c6_order_preservation_witness :
    (∀ it ∈ ([⟨"Apple ", false⟩, ⟨"Beans", false⟩, ⟨"Cocoa", false⟩] :
        List KeepItem),
      it.checked = false ∧ it.text ≠ "" ∧ normalize it.text ≠ "" ∧
        normalize it.text ∉ bringKeys ⟨some "u", []⟩) ∧
      (([⟨"Apple ", false⟩, ⟨"Beans", false⟩, ⟨"Cocoa", false⟩] :
          List KeepItem).map fun it => normalize it.text).Nodup ∧
      (∀ it ∈ ([⟨"Apple "⟩, ⟨"Beans"⟩, ⟨"Cocoa"⟩] : List BringItem),
        pyStrip it.name ≠ "" ∧ normalize it.name ≠ "" ∧
          normalize it.name ∉ keepKeys []) ∧
      (keepToBringProposed [⟨"Apple ", false⟩, ⟨"Beans", false⟩, ⟨"Cocoa", false⟩]
          ⟨some "u", []⟩).map Prod.snd
        = [⟨"Apple ", false⟩, ⟨"Beans", false⟩, ⟨"Cocoa", false⟩] ∧
      bringToKeepProposed [] ⟨some "u", [⟨"Apple "⟩, ⟨"Beans"⟩, ⟨"Cocoa"⟩]⟩
        = ["Apple", "Beans", "Cocoa"] := by
  refine ⟨by decide, by decide, by decide, ?_, ?_⟩
  · exact (c6_order_preservation
      [⟨"Apple ", false⟩, ⟨"Beans", false⟩, ⟨"Cocoa", false⟩] ⟨some "u", []⟩ "u"
      [⟨"Apple "⟩, ⟨"Beans"⟩, ⟨"Cocoa"⟩] [] rfl (by decide) (by decide)
      (by decide)).1
  · have h := (c6_order_preservation
      [⟨"Apple ", false⟩, ⟨"Beans", false⟩, ⟨"Cocoa", false⟩] ⟨some "u", []⟩ "u"
      [⟨"Apple "⟩, ⟨"Beans"⟩, ⟨"Cocoa"⟩] [] rfl (by decide) (by decide)
      (by decide)).2.2
    rw [h]
    decide

/-- C8: after a run in which every proposed creation succeeded, a second diff
of the same source against the updated destination proposes nothing, in
either direction — the first run makes the destination key set a superset of
the source's active non-empty keys. -/
theorem c8_idempotence (keep : List KeepItem) (bring : BringSnapshot) :
    keepToBringProposed keep (bringAfterSync keep bring) = [] ∧
      bringToKeepProposed (keepAfterSync keep bring) bring = [] := by
  constructor
  · cases hu : bring.listUuid with
    | none =>
      have h0 : (bringAfterSync keep bring).listUuid = none := by
        simp [bringAfterSync, hu]
      simp [keepToBringProposed, h0]
    | some u =>
      have hu' : (bringAfterSync keep bring).listUuid = some u := by
        simp [bringAfterSync, hu]
      simp only [keepToBringProposed, hu']
      rw [List.filter_eq_nil_iff]
      intro p hp hpred
      simp only [Bool.and_eq_true, bne_iff_ne, ne_eq, Bool.not_eq_true',
        contains_eq_false] at hpred
      obtain ⟨⟨hne, hch⟩, hct⟩ := hpred
      apply hct
      by_cases hin : p.1 ∈ bringKeys bring
      · simp only [bringAfterSync, bringKeys, List.filter_append, List.map_append]
        exact List.mem_append_left _ (by simpa [bringKeys] using hin)
      · have hprop : p ∈ keepToBringProposed keep bring := by
          simp only [keepToBringProposed, hu, List.mem_filter]
          refine ⟨hp, ?_⟩
          simp [hne, hch, hin]
        have hk := (keepDict_entry hp).1
        have hkne : normalize p.2.text ≠ "" := by rw [hk]; exact hne
        have hsne : pyStrip p.2.text ≠ "" := pyStrip_ne_of_normalize_ne hkne
        simp only [bringAfterSync, bringKeys, List.filter_append, List.map_append]
        refine List.mem_append_right _ ?_
        rw [List.mem_map]
        refine ⟨⟨pyStrip p.2.text⟩, ?_, ?_⟩
        · rw [List.mem_filter]
          exact ⟨List.mem_map.mpr ⟨p, hprop, rfl⟩, by simp [hsne]⟩
        · show normalize (pyStrip p.2.text) = p.1
          rw [normalize_pyStrip, hk]
  · simp only [bringToKeepProposed, List.map_eq_nil_iff]
    rw [List.filter_eq_nil_iff]
    intro it hit hcond
    obtain ⟨hs, hn, hk⟩ := bringToKeepCond_eq_true hcond
    apply hk
    by_cases hin : normalize it.name ∈ keepKeys keep
    · obtain ⟨j, hj, hjne, hjk⟩ := mem_keepKeys.mp hin
      refine mem_keepKeys.mpr ⟨j, ?_, hjne, hjk⟩
      simp only [keepAfterSync]
      exact List.mem_append_left _ hj
    · have hcond0 : bringToKeepCond keep it = true := by
        simp [bringToKeepCond, hs, hn, hin]
      have hlab : pyStrip it.name ∈ bringToKeepProposed keep bring :=
        List.mem_map.mpr ⟨it, List.mem_filter.mpr ⟨hit, hcond0⟩, rfl⟩
      refine mem_keepKeys.mpr ⟨⟨pyStrip it.name, false⟩, ?_, hs, ?_⟩
      · simp only [keepAfterSync]
        exact List.mem_append_right _ (List.mem_map.mpr ⟨pyStrip it.name, hlab, rfl⟩)
      · show normalize (pyStrip it.name) = normalize it.name
        exact normalize_pyStrip it.name

end KeepBring
